import Mathlib

/-!
# Verification of the SPA library core (`src/spa`)

A shallow embedding of the sequential hypothesis-test engine (`smc`), the
interval-search driver (`spa` / `_linear_search`), the property operations of
`properties.py` (`ThresholdProperty`, `RatioHyperproperty`) and the helpers of
`util.py` (`round_to`) and `dataclasses.py` (`SMCResult`, `SPAResult`).

Modelling conventions:
* Python floats are modelled as exact rationals (`ℚ`); all arithmetic is exact.
* `scipy.stats.beta.cdf(x, a, b)` is the regularized incomplete beta function
  `I_x(a, b)`; for positive integer parameters (the only way `core.py` calls
  it) it equals the binomial tail `∑ j in [a, a+b-1], C(a+b-1, j) x^j (1-x)^(a+b-1-j)`,
  which is the exact definition used here (`betaCDF`).
* A raised exception that escapes a function, and Python runtime errors
  (`ZeroDivisionError`, `ValueError` from `max`/`min` on an empty generator,
  `math.log10` domain errors, the `SPAException` search-limit failure) are
  modelled as an `Option.none` return value; a normal return is `some`.
* The `OutOfDataException` protocol of `extract_value` is modelled by an
  `Option` result, as it is internal control flow for `smc`.
* No property class shipped with the repository ever returns `None` from
  `check_sample_satisfy`, so the inner `while sample_satisfy is None` loop of
  `smc` (core.py lines 61-75) performs exactly one extraction per outer
  iteration; the satisfaction check is therefore modelled as `α → Bool` and
  one data element is consumed per trial.
-/

-- Rational arithmetic is kept reducible so that concrete runs of the
-- embedded algorithms can be evaluated inside proofs by `decide`.
attribute [local semireducible] Rat.add Rat.mul Rat.inv Rat.sub Rat.ofScientific

/-- `ResultDetail` named tuple of `dataclasses.py` (line 6):
`(num_trials, satisfied_trials, conf_cp_list, lean_list)`. -/
structure SMCInternalDetail where
  num_trials : ℕ
  satisfied_trials : ℕ
  conf_cp_list : List ℚ
  lean_list : List Bool
  deriving DecidableEq, Repr

/-- `SMCResult` dataclass of `dataclasses.py` (lines 9-14).  The verdict
`result` is `True`/`False`/`None` in Python, hence `Option Bool` here. -/
structure SMCResult where
  result : Option Bool
  conf : ℚ
  result_detail : SMCInternalDetail
  deriving DecidableEq, Repr

/-- `create_smc_result` of `dataclasses.py` (lines 24-26). -/
def create_smc_result (result : Option Bool) (conf : ℚ) (num_trials : ℕ)
    (satisfied_trials : ℕ) (conf_cp_list : List ℚ) (lean_list : List Bool) : SMCResult :=
  ⟨result, conf, ⟨num_trials, satisfied_trials, conf_cp_list, lean_list⟩⟩

/-- Exact value of `scipy.stats.beta.cdf(x, a, b)` for positive integer
parameters `a`, `b`: the regularized incomplete beta function `I_x(a, b)`,
written as a binomial tail over `a + b - 1` trials. -/
def betaCDF (x : ℚ) (a b : ℕ) : ℚ :=
  ∑ j ∈ Finset.Icc a (a + b - 1), ((a + b - 1).choose j : ℚ) * x ^ j * (1 - x) ^ (a + b - 1 - j)

/-- The per-iteration Clopper-Pearson confidence computation of `smc`
(`core.py` lines 83-97), as a function of the probability threshold `p`, the
trial count `n` (`num_trials`) and the satisfied count `s`
(`satisfied_trials`).  The computation reads only the current counts, so it is
memoryless across iterations. -/
def confCP (p : ℚ) (n s : ℕ) : ℚ :=
  -- core.py lines 84-87: pick the sub-interval (a, b)
  let ab : ℚ × ℚ := if (s : ℚ) / (n : ℚ) < p then (0, p) else (p, 1)
  -- core.py lines 90-97: the three-case confidence value
  if s = 0 then (1 - ab.1) ^ n - (1 - ab.2) ^ n
  else if s = n then ab.2 ^ n - ab.1 ^ n
  else betaCDF ab.2 (s + 1) (n - s) - betaCDF ab.1 s (n - s + 1)

/-- The `while` loop of `smc` (`core.py` lines 56-105).  State arguments
mirror the Python locals: data remaining, `num_trials`, `satisfied_trials`,
`conf_cp`, `conf_cp_list`, `lean_list`, `result`.  A `none` return models the
`ZeroDivisionError` that line 71 would raise with `num_trials = 0`. -/
def smcLoop (check : α → Bool) (p c : ℚ) (continuous : Bool) :
    List α → ℕ → ℕ → ℚ → List ℚ → List Bool → Option Bool → Option SMCResult
  | d, n, s, conf, cl, ll, r =>
    if conf < c ∨ continuous = true then
      match d with
      | [] =>
        -- core.py lines 65-73: the data source is exhausted
        if conf < c then some (create_smc_result none conf n s cl ll)
        else if n = 0 then none
        else some (create_smc_result (some (decide (p < (s : ℚ) / (n : ℚ)))) conf n s cl ll)
      | x :: rest =>
        -- core.py lines 75-103: one trial
        let s' := if check x then s + 1 else s
        let conf' := confCP p (n + 1) s'
        let lean' := decide (p < (s' : ℚ) / ((n + 1 : ℕ) : ℚ))
        smcLoop check p c continuous rest (n + 1) s' conf' (cl ++ [conf']) (ll ++ [lean'])
          (some lean')
    else some (create_smc_result r conf n s cl ll)

/-- `smc` of `core.py` (lines 29-105), generic over the property's
satisfaction check (`check`), started from the initial state of lines 46-54.
Input validation (`_smc_iv`) appears as hypotheses on the theorems: the data
shape check `verify_data` demands a non-empty list, and the probability
parameters must lie in `[0, 1]`. -/
def smc (data : List α) (check : α → Bool) (prob_threshold confidence : ℚ)
    (continuous : Bool) : Option SMCResult :=
  smcLoop check prob_threshold confidence continuous data 0 0 0 [] [] none

/-- Modelled from the spec (§4.2 steps 3-4): the sub-interval choice
"(a,b) = (0, prob_threshold) if p̂ < prob_threshold, else (prob_threshold, 1)". -/
def specSubInterval (p : ℚ) (n s : ℕ) : ℚ × ℚ :=
  if (s : ℚ) / (n : ℚ) < p then (0, p) else (p, 1)

/-- Modelled from the spec (§4.2 step 4): the claimed per-iteration confidence
value: `(1-a)^n - (1-b)^n` when `satisfied = 0`, `b^n - a^n` when
`satisfied = n`, and `BetaCDF(b; s+1, n-s) - BetaCDF(a; s, n-s+1)` otherwise. -/
def specIterConf (p : ℚ) (n s : ℕ) : ℚ :=
  let ab := specSubInterval p n s
  if s = 0 then (1 - ab.1) ^ n - (1 - ab.2) ^ n
  else if s = n then ab.2 ^ n - ab.1 ^ n
  else betaCDF ab.2 (s + 1) (n - s) - betaCDF ab.1 s (n - s + 1)

theorem confCP_eq_specIterConf (p : ℚ) (n s : ℕ) : confCP p n s = specIterConf p n s := rfl

/-- The per-iteration confidence values (`conf_cp_list` entries) that the
`smc` loop appends while consuming `d` from state `(n, s)`. -/
def confTrace (check : α → Bool) (p : ℚ) : List α → ℕ → ℕ → List ℚ
  | [], _, _ => []
  | x :: rest, n, s =>
    confCP p (n + 1) (if check x then s + 1 else s) ::
      confTrace check p rest (n + 1) (if check x then s + 1 else s)

/-- The per-iteration provisional verdicts (`lean_list` entries) that the
`smc` loop appends while consuming `d` from state `(n, s)`. -/
def leanTrace (check : α → Bool) (p : ℚ) : List α → ℕ → ℕ → List Bool
  | [], _, _ => []
  | x :: rest, n, s =>
    decide (p < (((if check x then s + 1 else s) : ℕ) : ℚ) / ((n + 1 : ℕ) : ℚ)) ::
      leanTrace check p rest (n + 1) (if check x then s + 1 else s)

/-- In continuous mode the loop always runs to data exhaustion; the final
state is determined by the totals, because the confidence computation is
memoryless. -/
theorem smcLoop_cont (check : α → Bool) (p c : ℚ) :
    ∀ (d : List α) (n s : ℕ) (conf : ℚ) (cl : List ℚ) (ll : List Bool) (r : Option Bool),
    smcLoop check p c true d n s conf cl ll r =
      (let N := n + d.length
       let S := s + d.countP check
       let C := if d.isEmpty then conf else confCP p N S
       if C < c then
         some (create_smc_result none C N S (cl ++ confTrace check p d n s)
           (ll ++ leanTrace check p d n s))
       else if N = 0 then none
       else
         some (create_smc_result (some (decide (p < (S : ℚ) / (N : ℚ)))) C N S
           (cl ++ confTrace check p d n s) (ll ++ leanTrace check p d n s))) := by
  intro d
  induction d with
  | nil =>
    intro n s conf cl ll r
    simp [smcLoop, confTrace, leanTrace]
  | cons x rest ih =>
    intro n s conf cl ll r
    rw [smcLoop, if_pos (Or.inr rfl)]
    show smcLoop check p c true rest (n + 1) (if check x then s + 1 else s) _ _ _ _ = _
    rw [ih]
    have hS : (if check x = true then s + 1 else s) + List.countP check rest
        = s + List.countP check (x :: rest) := by
      rw [List.countP_cons]; by_cases h : check x <;> simp [h] <;> omega
    have hN : n + 1 + rest.length = n + (x :: rest).length := by simp; omega
    simp only [hS, hN]
    have hC : (if rest.isEmpty = true then confCP p (n + 1) (if check x = true then s + 1 else s)
        else confCP p (n + (x :: rest).length) (s + List.countP check (x :: rest)))
        = confCP p (n + (x :: rest).length) (s + List.countP check (x :: rest)) := by
      rcases rest with _ | ⟨y, ys⟩
      · have hone : s + List.countP check [x] = (if check x = true then s + 1 else s) := by
          rw [List.countP_cons]; by_cases h : check x <;> simp [h] <;> omega
        simp [hone]
      · simp
    rw [hC]
    simp only [List.isEmpty_cons, Bool.false_eq_true, if_false, confTrace, leanTrace,
      List.append_assoc, List.singleton_append]

/-- The loop of `smc` always returns normally unless it can reach the
exhaustion branch with `num_trials = 0` (the only spot where line 71 could
divide by zero); with a non-empty data source that is impossible. -/
theorem smcLoop_isSome (check : α → Bool) (p c : ℚ) (continuous : Bool) :
    ∀ (d : List α) (n s : ℕ) (conf : ℚ) (cl : List ℚ) (ll : List Bool) (r : Option Bool),
    (d = [] → 1 ≤ n) → (smcLoop check p c continuous d n s conf cl ll r).isSome = true := by
  intro d
  induction d with
  | nil =>
    intro n s conf cl ll r h
    have hn := h rfl
    rw [smcLoop]
    split_ifs with h1 h2 h3
    · simp
    · omega
    · simp
    · simp
  | cons x rest ih =>
    intro n s conf cl ll r _
    by_cases hg : conf < c ∨ continuous = true
    · rw [smcLoop, if_pos hg]
      show (smcLoop check p c continuous rest (n + 1)
        (if check x then s + 1 else s) _ _ _ _).isSome = true
      exact ih (n + 1) _ _ _ _ _ (fun _ => Nat.le_add_left 1 n)
    · rw [smcLoop, if_neg hg]
      simp

/-- State invariant of the `smc` loop: the trial count always equals the
lengths of both traces, the satisfied count never exceeds it, and `conf_cp`
is `0` before the first iteration and the last trace entry afterwards. -/
theorem smcLoop_inv (check : α → Bool) (p c : ℚ) (continuous : Bool) :
    ∀ (d : List α) (n s : ℕ) (conf : ℚ) (cl : List ℚ) (ll : List Bool) (r : Option Bool)
      (res : SMCResult),
    n = cl.length → n = ll.length → s ≤ n → (n = 0 → conf = 0) →
    (1 ≤ n → cl.getLast? = some conf) →
    smcLoop check p c continuous d n s conf cl ll r = some res →
    res.result_detail.num_trials = res.result_detail.conf_cp_list.length ∧
      res.result_detail.num_trials = res.result_detail.lean_list.length ∧
      res.result_detail.satisfied_trials ≤ res.result_detail.num_trials ∧
      (1 ≤ res.result_detail.num_trials →
        res.result_detail.conf_cp_list.getLast? = some res.conf) ∧
      (res.result_detail.num_trials = 0 → res.conf = 0) := by
  intro d
  induction d with
  | nil =>
    intro n s conf cl ll r res h1 h2 h3 h4 h5 heq
    rw [smcLoop] at heq
    split_ifs at heq <;>
      · cases heq
        exact ⟨h1, h2, h3, h5, h4⟩
  | cons x rest ih =>
    intro n s conf cl ll r res h1 h2 h3 h4 h5 heq
    by_cases hg : conf < c ∨ continuous = true
    · rw [smcLoop, if_pos hg] at heq
      have heq' : smcLoop check p c continuous rest (n + 1) (if check x then s + 1 else s)
          (confCP p (n + 1) (if check x then s + 1 else s))
          (cl ++ [confCP p (n + 1) (if check x then s + 1 else s)])
          (ll ++ [decide (p < (((if check x then s + 1 else s) : ℕ) : ℚ) / ((n + 1 : ℕ) : ℚ))])
          (some (decide (p < (((if check x then s + 1 else s) : ℕ) : ℚ) / ((n + 1 : ℕ) : ℚ)))) =
          some res := heq
      refine ih (n + 1) _ _ _ _ _ res ?_ ?_ ?_ ?_ ?_ heq'
      · simp only [List.length_append, List.length_cons, List.length_nil, ← h1]
      · simp only [List.length_append, List.length_cons, List.length_nil, ← h2]
      · split_ifs <;> omega
      · intro h
        exact absurd h (by omega)
      · intro _
        exact List.getLast?_concat _
    · rw [smcLoop, if_neg hg] at heq
      injection heq with h
      subst h
      exact ⟨h1, h2, h3, h5, h4⟩

/-- When the loop guard (`core.py` line 56) fails, the loop returns the
current state (line 105) regardless of the remaining data. -/
theorem smcLoop_guard_false {check : α → Bool} {p c : ℚ} {cont : Bool}
    (d : List α) (n s : ℕ) (conf : ℚ) (cl : List ℚ) (ll : List Bool) (r : Option Bool)
    (h : ¬(conf < c ∨ cont = true)) :
    smcLoop check p c cont d n s conf cl ll r = some (create_smc_result r conf n s cl ll) := by
  cases d <;> rw [smcLoop, if_neg h]

/-- Non-continuous mode: started below the target confidence, the loop runs
some `m ≤ |d|` iterations; it is inconclusive exactly when it consumed all
data while still below target, every iteration before the last was below
target, and if it stopped before exhausting the data then its last iteration
reached the target. -/
theorem smcLoop_noncont (check : α → Bool) (p c : ℚ) :
    ∀ (d : List α) (n s : ℕ) (conf : ℚ) (cl : List ℚ) (ll : List Bool) (r : Option Bool)
      (res : SMCResult),
    conf < c →
    smcLoop check p c false d n s conf cl ll r = some res →
    ∃ m, m ≤ d.length ∧
      res.result_detail.num_trials = n + m ∧
      res.result_detail.satisfied_trials = s + (d.take m).countP check ∧
      res.conf = (if m = 0 then conf else confCP p (n + m) (s + (d.take m).countP check)) ∧
      res.result_detail.conf_cp_list = cl ++ confTrace check p (d.take m) n s ∧
      res.result_detail.lean_list = ll ++ leanTrace check p (d.take m) n s ∧
      (res.result = none ↔ (m = d.length ∧ res.conf < c)) ∧
      (∀ k, k + 1 < m → confCP p (n + (k + 1)) (s + (d.take (k + 1)).countP check) < c) ∧
      (m < d.length → c ≤ confCP p (n + m) (s + (d.take m).countP check)) := by
  intro d
  induction d with
  | nil =>
    intro n s conf cl ll r res hlt heq
    rw [smcLoop, if_pos (Or.inl hlt), if_pos hlt] at heq
    injection heq with h
    subst h
    refine ⟨0, by simp, by simp [create_smc_result], by simp [create_smc_result],
      by simp [create_smc_result], by simp [create_smc_result, confTrace],
      by simp [create_smc_result, leanTrace], by simp [create_smc_result, hlt], ?_, ?_⟩
    · intro k hk
      omega
    · intro h
      simp at h
  | cons x rest ih =>
    intro n s conf cl ll r res hlt heq
    rw [smcLoop, if_pos (Or.inl hlt)] at heq
    have heq' : smcLoop check p c false rest (n + 1) (if check x then s + 1 else s)
        (confCP p (n + 1) (if check x then s + 1 else s))
        (cl ++ [confCP p (n + 1) (if check x then s + 1 else s)])
        (ll ++ [decide (p < (((if check x then s + 1 else s) : ℕ) : ℚ) / ((n + 1 : ℕ) : ℚ))])
        (some (decide (p < (((if check x then s + 1 else s) : ℕ) : ℚ) / ((n + 1 : ℕ) : ℚ)))) =
        some res := heq
    have htake : ∀ j, s + ((x :: rest).take (j + 1)).countP check =
        (if check x then s + 1 else s) + (rest.take j).countP check := by
      intro j
      rw [List.take_succ_cons, List.countP_cons]
      by_cases h : check x <;> simp [h] <;> omega
    have htr : ∀ j, confTrace check p ((x :: rest).take (j + 1)) n s =
        confCP p (n + 1) (if check x then s + 1 else s) ::
          confTrace check p (rest.take j) (n + 1) (if check x then s + 1 else s) := by
      intro j
      rw [List.take_succ_cons]
      rfl
    have hlr : ∀ j, leanTrace check p ((x :: rest).take (j + 1)) n s =
        decide (p < (((if check x then s + 1 else s) : ℕ) : ℚ) / ((n + 1 : ℕ) : ℚ)) ::
          leanTrace check p (rest.take j) (n + 1) (if check x then s + 1 else s) := by
      intro j
      rw [List.take_succ_cons]
      rfl
    by_cases hlt' : confCP p (n + 1) (if check x then s + 1 else s) < c
    · obtain ⟨m', hm'le, hnum, hsat, hconf, hcl, hll, hres, hprev, hstop⟩ :=
        ih (n + 1) _ _ _ _ _ res hlt' heq'
      refine ⟨m' + 1, by simp only [List.length_cons]; omega,
        by rw [hnum]; omega, ?_, ?_, ?_, ?_, ?_, ?_, ?_⟩
      · rw [htake m', hsat]
      · rw [htake m']
        rcases Nat.eq_zero_or_pos m' with hz | hpos
        · subst hz
          simpa using hconf
        · rw [if_neg (by omega), hconf, if_neg (by omega)]
          have h2 : n + 1 + m' = n + (m' + 1) := by omega
          rw [h2]
      · rw [hcl, htr m', List.append_assoc]
        rfl
      · rw [hll, hlr m', List.append_assoc]
        rfl
      · rw [hres]
        constructor
        · rintro ⟨h1, h2⟩
          exact ⟨by simp only [List.length_cons]; omega, h2⟩
        · rintro ⟨h1, h2⟩
          simp only [List.length_cons] at h1
          exact ⟨by omega, h2⟩
      · intro k hk
        rcases Nat.eq_zero_or_pos k with hz | hpos
        · subst hz
          rw [htake 0]
          simpa using hlt'
        · obtain ⟨j, rfl⟩ := Nat.exists_eq_add_of_le hpos
          rw [htake (1 + j)]
          have h2 : n + (1 + j + 1) = n + 1 + (j + 1) := by omega
          rw [h2]
          have h3 : (rest.take (1 + j)).countP check = (rest.take (j + 1)).countP check := by
            rw [Nat.add_comm 1 j]
          rw [h3]
          exact hprev j (by omega)
      · intro hm
        simp only [List.length_cons] at hm
        rw [htake m']
        have h2 : n + (m' + 1) = n + 1 + m' := by omega
        rw [h2]
        exact hstop (by omega)
    · rw [smcLoop_guard_false rest _ _ _ _ _ _ (by simp [hlt'])] at heq'
      injection heq' with h
      subst h
      refine ⟨1, by simp only [List.length_cons]; omega, by simp [create_smc_result],
        ?_, ?_, ?_, ?_, ?_, ?_, ?_⟩
      · rw [htake 0]
        simp [create_smc_result]
      · have h0 : List.take 1 (x :: rest) = [x] := rfl
        rw [if_neg Nat.one_ne_zero, h0]
        have h1 : s + List.countP check [x] = (if check x = true then s + 1 else s) := by
          rw [List.countP_cons]
          by_cases h : check x <;> simp [h] <;> omega
        rw [h1]
        rfl
      · rw [htr 0]
        simp [create_smc_result, confTrace]
      · rw [hlr 0]
        simp [create_smc_result, leanTrace]
      · constructor
        · intro h
          simp [create_smc_result] at h
        · rintro ⟨h1, h2⟩
          exact absurd h2 hlt'
      · intro k hk
        omega
      · intro hm
        rw [htake 0]
        simpa using le_of_not_lt hlt'

/-- `smc` never raises on a non-empty data source: validation guarantees at
least one trial before any exhaustion return, so line 71 cannot divide by
zero. -/
theorem smc_isSome (data : List α) (check : α → Bool) (p c : ℚ) (continuous : Bool)
    (h : data ≠ []) : (smc data check p c continuous).isSome = true :=
  smcLoop_isSome check p c continuous data 0 0 0 [] [] none (fun he => absurd he h)

/-- Closed form of a continuous-mode `smc` run. -/
theorem smc_cont_eq (data : List α) (check : α → Bool) (p c : ℚ) :
    smc data check p c true =
      (let N := data.length
       let S := data.countP check
       let C := if data.isEmpty then 0 else confCP p N S
       if C < c then
         some (create_smc_result none C N S (confTrace check p data 0 0)
           (leanTrace check p data 0 0))
       else if N = 0 then none
       else
         some (create_smc_result (some (decide (p < (S : ℚ) / (N : ℚ)))) C N S
           (confTrace check p data 0 0) (leanTrace check p data 0 0))) := by
  show smcLoop check p c true data 0 0 0 [] [] none = _
  rw [smcLoop_cont]
  simp only [Nat.zero_add, List.nil_append]

/-- Field characterization of a continuous-mode run: every threshold tested
in continuous mode consumes the whole data source, counts the samples that
pass the check, and any non-`None` verdict is the final proportion
comparison. -/
theorem smc_cont_fields (data : List α) (check : α → Bool) (p c : ℚ) (r : SMCResult)
    (h : smc data check p c true = some r) :
    r.result_detail.num_trials = data.length ∧
      r.result_detail.satisfied_trials = data.countP check ∧
      ∀ b, r.result = some b →
        (b = decide (p < (data.countP check : ℚ) / (data.length : ℚ)) ∧ 1 ≤ data.length) := by
  rw [smc_cont_eq] at h
  simp only [] at h
  split_ifs at h with h1 h2 h3 h4 h5
  all_goals try exact Option.noConfusion h
  all_goals injection h with h
  all_goals subst h
  all_goals refine ⟨rfl, rfl, ?_⟩
  all_goals intro b hb
  all_goals simp only [create_smc_result] at hb
  all_goals first
    | exact Option.noConfusion hb
    | (injection hb with hb
       exact ⟨hb.symm, by omega⟩)

theorem betaCDF_nonneg (x : ℚ) (a b : ℕ) (h0 : 0 ≤ x) (h1 : x ≤ 1) : 0 ≤ betaCDF x a b := by
  refine Finset.sum_nonneg fun j _ => ?_
  have hx : (0 : ℚ) ≤ 1 - x := by linarith
  exact mul_nonneg (mul_nonneg (by positivity) (pow_nonneg h0 _)) (pow_nonneg hx _)

theorem betaCDF_zero_left (a b : ℕ) (ha : 1 ≤ a) : betaCDF 0 a b = 0 := by
  refine Finset.sum_eq_zero fun j hj => ?_
  rw [Finset.mem_Icc] at hj
  rw [zero_pow (by omega)]
  ring

theorem betaCDF_one_left (a b : ℕ) (hb : 1 ≤ b) : betaCDF 1 a b = 1 := by
  rw [betaCDF]
  rw [Finset.sum_eq_single (a + b - 1)]
  · rw [Nat.choose_self, Nat.sub_self]
    norm_num
  · intro j hj hne
    rw [Finset.mem_Icc] at hj
    have : (1 : ℚ) - 1 = 0 := by ring
    rw [this, zero_pow (by omega)]
    ring
  · intro hmem
    exact absurd (Finset.mem_Icc.mpr ⟨by omega, le_refl _⟩) hmem

theorem betaCDF_le_one (x : ℚ) (a b : ℕ) (h0 : 0 ≤ x) (h1 : x ≤ 1) (ha : 1 ≤ a) :
    betaCDF x a b ≤ 1 := by
  have hx : (0 : ℚ) ≤ 1 - x := by linarith
  have hsub : Finset.Icc a (a + b - 1) ⊆ Finset.range (a + b - 1 + 1) := by
    intro j hj
    rw [Finset.mem_Icc] at hj
    rw [Finset.mem_range]
    omega
  have hle : betaCDF x a b ≤
      ∑ j ∈ Finset.range (a + b - 1 + 1),
        ((a + b - 1).choose j : ℚ) * x ^ j * (1 - x) ^ (a + b - 1 - j) := by
    refine Finset.sum_le_sum_of_subset_of_nonneg hsub fun j _ _ => ?_
    exact mul_nonneg (mul_nonneg (by positivity) (pow_nonneg h0 _)) (pow_nonneg hx _)
  have hbin : ∑ j ∈ Finset.range (a + b - 1 + 1),
      ((a + b - 1).choose j : ℚ) * x ^ j * (1 - x) ^ (a + b - 1 - j) = 1 := by
    have h2 := add_pow x (1 - x) (a + b - 1)
    have hxx : x + (1 - x) = 1 := by ring
    rw [hxx, one_pow] at h2
    calc ∑ j ∈ Finset.range (a + b - 1 + 1),
        ((a + b - 1).choose j : ℚ) * x ^ j * (1 - x) ^ (a + b - 1 - j)
        = ∑ j ∈ Finset.range (a + b - 1 + 1),
          x ^ j * (1 - x) ^ (a + b - 1 - j) * ((a + b - 1).choose j : ℚ) :=
        Finset.sum_congr rfl fun j _ => by ring
      _ = 1 := h2.symm
  calc betaCDF x a b ≤ _ := hle
    _ = 1 := hbin

/-- Branch-distributed form of `confCP`. -/
theorem confCP_eq (p : ℚ) (n s : ℕ) :
    confCP p n s =
      if (s : ℚ) / (n : ℚ) < p then
        (if s = 0 then (1 - 0) ^ n - (1 - p) ^ n
         else if s = n then p ^ n - 0 ^ n
         else betaCDF p (s + 1) (n - s) - betaCDF 0 s (n - s + 1))
      else
        (if s = 0 then (1 - p) ^ n - (1 - 1) ^ n
         else if s = n then 1 ^ n - p ^ n
         else betaCDF 1 (s + 1) (n - s) - betaCDF p s (n - s + 1)) := by
  rw [confCP]
  by_cases hsel : (s : ℚ) / (n : ℚ) < p <;> simp [hsel]

/-- The per-iteration confidence value is never negative (needed for the
boundary case `confidence = 0`). -/
theorem confCP_nonneg (p : ℚ) (n s : ℕ) (hp0 : 0 ≤ p) (hp1 : p ≤ 1) (hn : 1 ≤ n)
    (hs : s ≤ n) : 0 ≤ confCP p n s := by
  have h1p0 : (0 : ℚ) ≤ 1 - p := by linarith
  have h1p1 : (1 : ℚ) - p ≤ 1 := by linarith
  rw [confCP_eq]
  split_ifs with hsel hs0 hsn hs0' hsn'
  · have h := pow_le_one₀ h1p0 h1p1 (n := n)
    norm_num
    linarith
  · rw [zero_pow (by omega)]
    simpa using pow_nonneg hp0 n
  · rw [betaCDF_zero_left s (n - s + 1) (by omega)]
    have h := betaCDF_nonneg p (s + 1) (n - s) hp0 hp1
    linarith
  · have h0 : (1 : ℚ) - 1 = 0 := by norm_num
    rw [h0, zero_pow (by omega)]
    simpa using pow_nonneg h1p0 n
  · have h := pow_le_one₀ hp0 hp1 (n := n)
    simp only [one_pow]
    linarith
  · rw [betaCDF_one_left (s + 1) (n - s) (by omega)]
    have h := betaCDF_le_one p s (n - s + 1) hp0 hp1 (by omega)
    linarith

/-- The recorded confidence trace, written as an indexed map: entry `k` is
the confidence computed at iteration `k + 1`. -/
theorem confTrace_eq_map (check : α → Bool) (p : ℚ) :
    ∀ (d : List α) (n s : ℕ),
    confTrace check p d n s =
      (List.range d.length).map
        (fun k => confCP p (n + (k + 1)) (s + ((d.take (k + 1)).countP check))) := by
  intro d
  induction d with
  | nil =>
    intro n s
    rfl
  | cons x rest ih =>
    intro n s
    rw [List.length_cons, List.range_succ_eq_map]
    rw [List.map_cons, List.map_map]
    show confCP p (n + 1) (if check x then s + 1 else s) ::
      confTrace check p rest (n + 1) (if check x then s + 1 else s) = _
    have htake : ∀ j : ℕ, s + ((x :: rest).take (j + 1)).countP check =
        (if check x then s + 1 else s) + (rest.take j).countP check := by
      intro j
      rw [List.take_succ_cons, List.countP_cons]
      by_cases h : check x <;> simp [h] <;> omega
    congr 1
    · have h0 := htake 0
      norm_num at h0 ⊢
      rw [h0]
    · rw [ih (n + 1) (if check x then s + 1 else s)]
      refine List.map_congr_left fun j _ => ?_
      show confCP p (n + 1 + (j + 1)) _ = confCP p (n + (j + 1 + 1)) _
      rw [htake (j + 1)]
      congr 1
      omega

/-- `GenericThreshold.__init__` comparator selection (`properties.py`
lines 99-108): `op_gt = true` models `op = '>'` (comparison `operator.gt`,
high-threshold outcome `False`), `op_gt = false` models `op = '<'`. -/
def high_threshold_outcome (op_gt : Bool) : Bool := !op_gt

/-- `ThresholdProperty.check_sample_satisfy` (`properties.py` lines 144-155):
the sample satisfies the property iff `comparison(value, threshold)` holds,
where `comparison` is `operator.gt` for `'>'` and `operator.lt` for `'<'`. -/
def ThresholdProperty.check_sample_satisfy (op_gt : Bool) (threshold value : ℚ) : Bool :=
  if op_gt then decide (value > threshold) else decide (value < threshold)

/-- C10: every `SMCResult` returned by `smc` — on any return path, including
the early out-of-data return and the zero-iteration case — has
`num_trials = |conf_cp_list| = |lean_list|`, `0 ≤ satisfied_trials ≤
num_trials` (the lower bound is inherent to `ℕ`), `conf` equal to the last
`conf_cp_list` entry when `num_trials ≥ 1`, and `conf = 0` when
`num_trials = 0`. -/
theorem C10_result_invariants (data : List α) (check : α → Bool) (p c : ℚ)
    (continuous : Bool) (r : SMCResult) (h : smc data check p c continuous = some r) :
    r.result_detail.num_trials = r.result_detail.conf_cp_list.length ∧
      r.result_detail.num_trials = r.result_detail.lean_list.length ∧
      r.result_detail.satisfied_trials ≤ r.result_detail.num_trials ∧
      (1 ≤ r.result_detail.num_trials →
        r.result_detail.conf_cp_list.getLast? = some r.conf) ∧
      (r.result_detail.num_trials = 0 → r.conf = 0) :=
  smcLoop_inv check p c continuous data 0 0 0 [] [] none r rfl rfl (le_refl 0)
    (fun _ => rfl) (fun h1 => absurd h1 (by omega)) h

/-- C10 witness: the invariants at a concrete run. -/
theorem C10_witness :
    smc [(1 : ℚ), 2] (fun v => decide ((0 : ℚ) < v)) (1/2) (3/4) true =
      some (create_smc_result (some true) (3/4) 2 2 [1/2, 3/4] [true, true]) ∧
    (create_smc_result (some true) ((3:ℚ)/4) 2 2 [1/2, 3/4] [true, true]).result_detail.num_trials =
      (create_smc_result (some true) ((3:ℚ)/4) 2 2 [1/2, 3/4] [true, true]).result_detail.conf_cp_list.length := by
  constructor
  · decide
  · exact (C10_result_invariants [(1 : ℚ), 2] (fun v => decide ((0 : ℚ) < v)) (1/2) (3/4) true
      (create_smc_result (some true) (3/4) 2 2 [1/2, 3/4] [true, true]) (by decide)).1

/-- C8: with validated data (non-empty list), running `smc` at the boundary
parameter values `prob_threshold ∈ {0, 1}` or `confidence ∈ {0, 1}` returns
an `SMCResult` normally in either continuous mode — no division by zero or
other unhandled error occurs. -/
theorem C8_boundary_safety (data : List α) (check : α → Bool) (p c : ℚ)
    (continuous : Bool) (hdata : data ≠ [])
    (hb : p = 0 ∨ p = 1 ∨ c = 0 ∨ c = 1) :
    ∃ r, smc data check p c continuous = some r :=
  Option.isSome_iff_exists.mp (smc_isSome data check p c continuous hdata)

/-- C8 witness: both boundary runs complete at a concrete input. -/
theorem C8_witness :
    (1 : ℚ) = 1 ∧ ∃ r, smc [(5 : ℚ)] (fun v => decide ((3 : ℚ) < v)) 1 1 false = some r :=
  ⟨rfl, C8_boundary_safety [(5 : ℚ)] (fun v => decide ((3 : ℚ) < v)) 1 1 false
    (by simp) (Or.inr (Or.inl rfl))⟩

/-- C2 (amended): with validated inputs and a run that actually enters the
sampling loop (`0 < confidence`, or continuous mode), `smc` returns normally
with a verdict in `{true, false, None}`, and the verdict is `None`
(inconclusive) exactly when the source was exhausted (`num_trials` equals the
data length) while the reported confidence was still below target. -/
theorem C2_verdict_trichotomy (data : List α) (check : α → Bool) (p c : ℚ)
    (continuous : Bool) (hdata : data ≠ []) (hp0 : 0 ≤ p) (hp1 : p ≤ 1)
    (hc0 : 0 ≤ c) (hc1 : c ≤ 1) (hrun : 0 < c ∨ continuous = true) :
    ∃ r, smc data check p c continuous = some r ∧
      (r.result = none ↔
        (r.result_detail.num_trials = data.length ∧ r.conf < c)) := by
  obtain ⟨r, hr⟩ := Option.isSome_iff_exists.mp (smc_isSome data check p c continuous hdata)
  refine ⟨r, hr, ?_⟩
  cases continuous with
  | true =>
    rw [smc_cont_eq] at hr
    simp only [] at hr
    have hne : ¬(data.isEmpty = true) := fun hh => hdata (List.isEmpty_iff.mp hh)
    have hlen : 1 ≤ data.length := by
      cases data with
      | nil => exact absurd rfl hdata
      | cons a l => simp
    have hconf0 : 0 ≤ confCP p data.length (data.countP check) :=
      confCP_nonneg p data.length (data.countP check) hp0 hp1 hlen (List.countP_le_length _)
    rw [if_neg hne] at hr
    split_ifs at hr with h1 h2
    · injection hr with hr
      subst hr
      simp [create_smc_result, h1]
    · injection hr with hr
      subst hr
      simp [create_smc_result, h1]
  | false =>
    have hc : (0 : ℚ) < c := by
      rcases hrun with h | h
      · exact h
      · exact absurd h (by simp)
    obtain ⟨m, hmle, hnum, _, _, _, _, hres, _, _⟩ :=
      smcLoop_noncont check p c data 0 0 0 [] [] none r hc hr
    rw [hres, hnum]
    constructor
    · rintro ⟨h1, h2⟩
      exact ⟨by omega, h2⟩
    · rintro ⟨h1, h2⟩
      exact ⟨by omega, h2⟩

/-- C2 counterexample to the claim as stated: with `confidence = 0` (a value
the claim's hypotheses allow, since it only requires `confidence ∈ [0, 1]`)
in non-continuous mode, the loop guard `conf_cp < confidence` is false at
entry, so `smc` returns the inconclusive verdict `None` after zero trials —
yet the data source (here of length 1) was not exhausted and the target
confidence 0 was already reached (`conf = 0 ≥ 0`).  So "inconclusive iff
data exhausts before target confidence is reached" fails. -/
theorem C2_counterexample :
    smc [(1 : ℚ)] (fun v => decide ((0 : ℚ) < v)) (1/2) 0 false =
      some (create_smc_result none 0 0 0 [] []) ∧
    (create_smc_result none 0 0 0 [] []).result = none ∧
    ¬((create_smc_result none 0 0 0 [] []).result_detail.num_trials =
        [(1 : ℚ)].length ∧ (create_smc_result none 0 0 0 [] []).conf < 0) := by
  refine ⟨by decide, rfl, ?_⟩
  rintro ⟨h, _⟩
  simp [create_smc_result] at h

/-- C2 witness: the amended claim at a concrete input. -/
theorem C2_witness :
    ∃ r, smc [(1 : ℚ), 2] (fun v => decide ((0 : ℚ) < v)) (1/2) (3/4) false = some r ∧
      (r.result = none ↔
        (r.result_detail.num_trials = [(1 : ℚ), 2].length ∧ r.conf < 3/4)) :=
  C2_verdict_trichotomy [(1 : ℚ), 2] (fun v => decide ((0 : ℚ) < v)) (1/2) (3/4) false
    (by simp) (by norm_num) (by norm_num) (by norm_num) (by norm_num) (Or.inl (by norm_num))

/-- Before the first iteration the Clopper-Pearson value at zero counts is
zero (both closed forms collapse at `n = 0`). -/
theorem confCP_zero_zero (p : ℚ) : confCP p 0 0 = 0 := by
  rw [confCP]
  simp

/-- C5: (a) in continuous mode the trial count is the full data length, so
two runs over the same data through a `ThresholdProperty` with either
comparator (`op_gt` covers both `'>'` and `'<'` instances) that differ only
in the threshold record the same `num_trials`; (b) in non-continuous mode
the run stops at the first iteration whose computed confidence reaches the
target (all earlier iterations are below target, and when it stops before
exhausting the data its last confidence has reached the target), so no
further extraction happens afterwards — including the `confidence ≤ 0` case,
where the loop guard fails at entry and zero trials are recorded. -/
theorem C5_trial_count :
    (∀ (data : List ℚ) (op_gt : Bool) (t1 t2 p c : ℚ) (r1 r2 : SMCResult),
      smc data (ThresholdProperty.check_sample_satisfy op_gt t1) p c true = some r1 →
      smc data (ThresholdProperty.check_sample_satisfy op_gt t2) p c true = some r2 →
      r1.result_detail.num_trials = r2.result_detail.num_trials) ∧
    (∀ (data : List ℚ) (check : ℚ → Bool) (p c : ℚ) (r : SMCResult),
      smc data check p c false = some r →
      r.result_detail.num_trials ≤ data.length ∧
      (∀ k, k + 1 < r.result_detail.num_trials →
        confCP p (k + 1) ((data.take (k + 1)).countP check) < c) ∧
      (r.result_detail.num_trials < data.length →
        c ≤ confCP p r.result_detail.num_trials
          ((data.take r.result_detail.num_trials).countP check))) := by
  constructor
  · intro data op_gt t1 t2 p c r1 r2 h1 h2
    have e1 := (smc_cont_fields data _ p c r1 h1).1
    have e2 := (smc_cont_fields data _ p c r2 h2).1
    rw [e1, e2]
  · intro data check p c r h
    by_cases hc : 0 < c
    · obtain ⟨m, hmle, hnum, _, _, _, _, _, hprev, hstop⟩ :=
        smcLoop_noncont check p c data 0 0 0 [] [] none r hc h
      rw [hnum]
      refine ⟨by omega, ?_, ?_⟩
      · intro k hk
        have := hprev k (by omega)
        simpa using this
      · intro hlt
        have := hstop (by omega)
        simpa using this
    · have hguard : ¬((0 : ℚ) < c ∨ false = true) := by
        push_neg
        exact ⟨le_of_not_lt hc, by simp⟩
      rw [show smc data check p c false = smcLoop check p c false data 0 0 0 [] [] none
          from rfl,
        smcLoop_guard_false data 0 0 0 [] [] none hguard] at h
      injection h with h
      subst h
      refine ⟨by simp [create_smc_result], ?_, ?_⟩
      · intro k hk
        simp [create_smc_result] at hk
      · intro _
        show c ≤ confCP p 0 ((data.take 0).countP check)
        simp only [List.take_zero, List.countP_nil]
        rw [confCP_zero_zero]
        exact le_of_not_lt hc

/-- C5 witness: both parts at concrete inputs. -/
theorem C5_witness :
    ((2 : ℕ) = 2) ∧
    (∀ k, k + 1 < 1 →
      confCP (1/2) (k + 1) (([(5 : ℚ)].take (k + 1)).countP
        (fun v => decide ((0 : ℚ) < v))) < 9/10) := by
  constructor
  · have h1 : smc [(3 : ℚ), 7] (ThresholdProperty.check_sample_satisfy true 1) (1/2) (3/4)
        true = some (create_smc_result (some true) (3/4) 2 2 [1/2, 3/4] [true, true]) := by
      decide
    have h2 : smc [(3 : ℚ), 7] (ThresholdProperty.check_sample_satisfy true 5) (1/2) (3/4)
        true = some (create_smc_result none (1/4) 2 1 [1/2, 1/4] [false, false]) := by
      decide
    exact C5_trial_count.1 [(3 : ℚ), 7] true 1 5 (1/2) (3/4) _ _ h1 h2
  · have h3 : smc [(5 : ℚ)] (fun v => decide ((0 : ℚ) < v)) (1/2) (9/10) false =
        some (create_smc_result none (1/2) 1 1 [1/2] [true]) := by
      decide
    exact (C5_trial_count.2 [(5 : ℚ)] (fun v => decide ((0 : ℚ) < v)) (1/2) (9/10) _
      h3).2.1

/-- For a `'>'` threshold property, the count of satisfying samples is
antitone in the threshold. -/
theorem countP_gt_antitone (data : List ℚ) (t1 t2 : ℚ) (h : t1 ≤ t2) :
    data.countP (ThresholdProperty.check_sample_satisfy true t2) ≤
      data.countP (ThresholdProperty.check_sample_satisfy true t1) := by
  refine List.countP_mono_left fun v _ hv => ?_
  have hv2 : decide (v > t2) = true := hv
  show decide (v > t1) = true
  have hgt : v > t2 := of_decide_eq_true hv2
  exact decide_eq_true (by linarith)

/-- C6: for fixed data and parameters, a continuous-mode `'>'`-property run
can never flip from a `false` verdict at a lower threshold to a `true`
verdict at a higher one: raising the threshold only removes satisfying
samples. -/
theorem C6_monotonicity (data : List ℚ) (p c t1 t2 : ℚ) (r1 r2 : SMCResult)
    (ht : t1 ≤ t2)
    (h1 : smc data (ThresholdProperty.check_sample_satisfy true t1) p c true = some r1)
    (h2 : smc data (ThresholdProperty.check_sample_satisfy true t2) p c true = some r2) :
    ¬(r1.result = some false ∧ r2.result = some true) := by
  rintro ⟨hf, htr⟩
  obtain ⟨hn1, hs1, hb1⟩ := smc_cont_fields data _ p c r1 h1
  obtain ⟨hn2, hs2, hb2⟩ := smc_cont_fields data _ p c r2 h2
  obtain ⟨he1, hlen⟩ := hb1 false hf
  obtain ⟨he2, _⟩ := hb2 true htr
  have hp2 : p < (data.countP (ThresholdProperty.check_sample_satisfy true t2) : ℚ) /
      (data.length : ℚ) := of_decide_eq_true he2.symm
  have hp1 : ¬(p < (data.countP (ThresholdProperty.check_sample_satisfy true t1) : ℚ) /
      (data.length : ℚ)) := of_decide_eq_false he1.symm
  have hcnt := countP_gt_antitone data t1 t2 ht
  have hL : (0 : ℚ) < (data.length : ℚ) := by
    exact_mod_cast hlen
  have hdiv : (data.countP (ThresholdProperty.check_sample_satisfy true t2) : ℚ) /
      (data.length : ℚ) ≤
      (data.countP (ThresholdProperty.check_sample_satisfy true t1) : ℚ) /
      (data.length : ℚ) := by
    gcongr
  exact hp1 (lt_of_lt_of_le hp2 hdiv)

/-- C6 witness. -/
theorem C6_witness :
    ¬(((create_smc_result (some true) ((7:ℚ)/8) 3 3 [1/2, 3/4, 7/8]
        [true, true, true]).result = some false) ∧
      ((create_smc_result (some false) ((1:ℚ)/2) 3 1 [1/2, 3/4, 1/2]
        [false, false, false]).result = some true)) := by
  have h1 : smc [(0 : ℚ), 0, 10] (ThresholdProperty.check_sample_satisfy true (-1)) (1/2)
      (1/2) true = some (create_smc_result (some true) (7/8) 3 3 [1/2, 3/4, 7/8]
        [true, true, true]) := by decide
  have h2 : smc [(0 : ℚ), 0, 10] (ThresholdProperty.check_sample_satisfy true 0) (1/2)
      (1/2) true = some (create_smc_result (some false) (1/2) 3 1 [1/2, 3/4, 1/2]
        [false, false, false]) := by decide
  exact C6_monotonicity [(0 : ℚ), 0, 10] (1/2) (1/2) (-1) 0 _ _ (by norm_num) h1 h2

/-- C3: every entry of the recorded confidence trace equals the spec's
formula: at iteration `n = k + 1` with `s` satisfied among the first `n`
samples, the engine picks the sub-interval `(0, p)` when `s/n < p` and
`(p, 1)` otherwise, and records `(1-a)^n - (1-b)^n` when `s = 0`,
`b^n - a^n` when `s = n`, and `BetaCDF(b; s+1, n-s) - BetaCDF(a; s, n-s+1)`
otherwise (`specIterConf`, written from the spec text). -/
theorem C3_conf_formula (data : List α) (check : α → Bool) (p c : ℚ) (continuous : Bool)
    (r : SMCResult) (h : smc data check p c continuous = some r) :
    r.result_detail.conf_cp_list =
      (List.range r.result_detail.num_trials).map
        (fun k => specIterConf p (k + 1) ((data.take (k + 1)).countP check)) := by
  have hspec : ∀ k : ℕ, specIterConf p (k + 1) ((data.take (k + 1)).countP check) =
      confCP p (k + 1) ((data.take (k + 1)).countP check) :=
    fun k => (confCP_eq_specIterConf p (k + 1) _).symm
  cases continuous with
  | true =>
    rw [smc_cont_eq] at h
    simp only [] at h
    have htr := confTrace_eq_map check p data 0 0
    simp only [Nat.zero_add] at htr
    split_ifs at h <;>
      (try exact Option.noConfusion h) <;>
      · injection h with h
        subst h
        show confTrace check p data 0 0 = _
        rw [htr]
        exact List.map_congr_left fun k _ => (hspec k).symm
  | false =>
    by_cases hc : 0 < c
    · obtain ⟨m, hmle, hnum, _, _, hcl, _, _, _, _⟩ :=
        smcLoop_noncont check p c data 0 0 0 [] [] none r hc h
      show r.result_detail.conf_cp_list = _
      rw [hcl, hnum]
      simp only [List.nil_append, Nat.zero_add]
      have htr := confTrace_eq_map check p (data.take m) 0 0
      simp only [Nat.zero_add] at htr
      rw [htr]
      have hlen : (data.take m).length = m := List.length_take_of_le hmle
      rw [hlen]
      refine List.map_congr_left fun k hk => ?_
      rw [List.mem_range] at hk
      have htt : (data.take m).take (k + 1) = data.take (k + 1) := by
        rw [List.take_take]
        congr 1
        omega
      rw [htt, hspec k]
    · have hguard : ¬((0 : ℚ) < c ∨ false = true) := by
        push_neg
        exact ⟨le_of_not_lt fun hh => hc hh, by simp⟩
      rw [show smc data check p c false =
          smcLoop check p c false data 0 0 0 [] [] none from rfl,
        smcLoop_guard_false data 0 0 0 [] [] none hguard] at h
      injection h with h
      subst h
      rfl

/-- C3 witness: the trace formula at a concrete run. -/
theorem C3_witness :
    (create_smc_result (some true) 1 1 1 [1] [true]).result_detail.conf_cp_list =
      (List.range (create_smc_result (some true) 1 1 1 [1]
        [true]).result_detail.num_trials).map
        (fun k => specIterConf 0 (k + 1)
          (([(1 : ℚ)].take (k + 1)).countP (fun _ => true))) :=
  C3_conf_formula [(1 : ℚ)] (fun _ => true) 0 1 false
    (create_smc_result (some true) 1 1 1 [1] [true]) (by decide)

/-- `ThresholdProperty.extract_value` (`properties.py` lines 131-142): raise
`OutOfDataException` when the list is empty (modelled as `none`), else return
the leftmost value together with the remaining data `data[1:]` — a fresh list
produced by slicing; the caller's list object is never mutated, which the
pure embedding reflects. -/
def ThresholdProperty.extract_value (data : List ℚ) : Option (ℚ × List ℚ) :=
  match data with
  | [] => none
  | value :: rest => some (value, rest)

/-- `RatioHyperproperty.extract_value` (`properties.py` lines 198-211): raise
`OutOfDataException` unless every source has at least one value, else return
the list of leftmost values of all sources together with the remaining
sources `[d[1:] for d in data]` — fresh lists, the caller's lists are never
mutated. -/
def RatioHyperproperty.extract_value (data : List (List ℚ)) :
    Option (List ℚ × List (List ℚ)) :=
  if data.all (fun d => decide (0 < d.length)) then
    some (data.map (fun d => d.headI), data.map (fun d => d.tail))
  else none

/-- `RatioHyperproperty.check_sample_satisfy` (`properties.py` lines
213-224): the ratio of the first source's value over the second's is
compared against the threshold. -/
def RatioHyperproperty.check_sample_satisfy (op_gt : Bool) (threshold : ℚ)
    (value : List ℚ) : Bool :=
  let ratio := value.headI / (value.drop 1).headI
  if op_gt then decide (ratio > threshold) else decide (ratio < threshold)

/-- C7: `ThresholdProperty.extract_value` yields `(data[0], data[1:])` and
signals out-of-data exactly on empty input; `RatioHyperproperty.extract_value`
yields the heads and tails of all sources and signals out-of-data exactly
when some source is empty.  Both leave the original data recoverable (no
mutation): the input is exactly the extracted values consed back onto the
remainders, so two searches can start from the same source. -/
theorem C7_extraction (data : List ℚ) (dss : List (List ℚ)) :
    (ThresholdProperty.extract_value data = none ↔ data = []) ∧
    (∀ x xs, data = x :: xs → ThresholdProperty.extract_value data = some (x, xs)) ∧
    (RatioHyperproperty.extract_value dss = none ↔ ¬(∀ d ∈ dss, d ≠ [])) ∧
    (∀ v rest, RatioHyperproperty.extract_value dss = some (v, rest) →
      v = dss.map (fun d => d.headI) ∧ rest = dss.map (fun d => d.tail) ∧
      dss = List.zipWith (fun a l => a :: l) v rest) := by
  refine ⟨?_, ?_, ?_, ?_⟩
  · cases data <;> simp [ThresholdProperty.extract_value]
  · intro x xs hx
    subst hx
    rfl
  · rw [RatioHyperproperty.extract_value]
    split_ifs with hall <;>
      simp only [List.all_eq_true, decide_eq_true_eq] at hall
    · have hne : ∀ d ∈ dss, d ≠ [] :=
        fun d hd => List.ne_nil_of_length_pos (hall d hd)
      exact iff_of_false (by simp) fun hh => hh hne
    · have hne : ¬(∀ d ∈ dss, d ≠ []) :=
        fun hh => hall fun d hd => List.length_pos_of_ne_nil (hh d hd)
      simp [hne]
  · intro v rest hv
    rw [RatioHyperproperty.extract_value] at hv
    split_ifs at hv with hall
    · injection hv with hv
      injection hv with hv1 hv2
      subst hv1
      subst hv2
      refine ⟨rfl, rfl, ?_⟩
      simp only [List.all_eq_true] at hall
      induction dss with
      | nil => rfl
      | cons d ds ih =>
        have hd : d ≠ [] := by
          have := hall d (by simp)
          simp only [decide_eq_true_eq] at this
          exact List.ne_nil_of_length_pos this
        rw [List.map_cons, List.map_cons, List.zipWith_cons_cons]
        rw [← ih (fun e he => hall e (by simp [he]))]
        congr 1
        cases d with
        | nil => exact absurd rfl hd
        | cons a l => rfl

/-- C7 witness: the extraction contracts at concrete inputs. -/
theorem C7_witness :
    ThresholdProperty.extract_value [(3 : ℚ), 4] = some (3, [4]) ∧
    ([[(1 : ℚ), 2], [(5 : ℚ)]] : List (List ℚ)) =
      List.zipWith (fun a l => a :: l) [1, 5] [[2], []] := by
  constructor
  · exact (C7_extraction [(3 : ℚ), 4] []).2.1 3 [4] rfl
  · exact ((C7_extraction [] [[(1 : ℚ), 2], [(5 : ℚ)]]).2.2.2 [1, 5] [[2], []]
      (by decide)).2.2

/-- Python's built-in `round`: round half to even (banker's rounding), as
used by `round_to` in `util.py`. -/
def roundHalfEven (q : ℚ) : ℤ :=
  let f := ⌊q⌋
  let r := q - (f : ℚ)
  if r < 1/2 then f
  else if 1/2 < r then f + 1
  else if f % 2 = 0 then f else f + 1

/-- `round_to` of `util.py` (lines 30-37): round `val` to the nearest
multiple of `precision` via `round(val / precision) * precision`. -/
def round_to (val precision : ℚ) : ℚ :=
  (roundHalfEven (val / precision) : ℚ) * precision

/-- The granularity derivation of `spa` (`core.py` lines 171-173):
`10 ** ceil(log10(search_start_point / 1000))`.  `Int.clog 10 x = ⌈log10 x⌉`
exactly, for `x > 0`; `math.log10` raises on `x ≤ 0`, a case handled at the
call site of this definition. -/
def derivedGranularity (search_start_point : ℚ) : ℚ :=
  (10 : ℚ) ^ Int.clog 10 (search_start_point / 1000)

/-- C4 (amended): when no granularity is supplied, `spa` derives it as the
SMALLEST power of ten greater than or equal to 0.1% of the start point — the
ceiling on the log-ten scale — not the power of ten nearest to that value. -/
theorem C4_granularity (s : ℚ) (hs : 0 < s) :
    s / 1000 ≤ derivedGranularity s ∧
      ∃ k : ℤ, derivedGranularity s = 10 ^ k ∧
        ∀ j : ℤ, s / 1000 ≤ (10 : ℚ) ^ j → derivedGranularity s ≤ (10 : ℚ) ^ j := by
  have hpos : (0 : ℚ) < s / 1000 := by positivity
  have hb : 1 < 10 := by norm_num
  have hcast : ((10 : ℕ) : ℚ) = (10 : ℚ) := by norm_num
  have hle : s / 1000 ≤ (10 : ℚ) ^ Int.clog 10 (s / 1000) := by
    have := Int.self_le_zpow_clog (b := 10) hb (s / 1000)
    rwa [hcast] at this
  refine ⟨hle, Int.clog 10 (s / 1000), rfl, ?_⟩
  intro j hj
  have hclog : Int.clog 10 (s / 1000) ≤ j := by
    rw [← Int.le_zpow_iff_clog_le hb hpos, hcast]
    exact hj
  exact zpow_le_zpow_right₀ (by norm_num) hclog

/-- C4 counterexample to "nearest": at `search_start_point = 2000`, 0.1% of
the start point is `2`; the code derives granularity `10`, but the power of
ten `10 ^ 0 = 1` is strictly nearer to `2` than `10` is.  The derivation is
a ceiling, not a nearest-power rounding. -/
theorem C4_counterexample :
    derivedGranularity 2000 = 10 ∧
      |(2000 : ℚ) / 1000 - (10 : ℚ) ^ (0 : ℤ)| <
        |(2000 : ℚ) / 1000 - derivedGranularity 2000| := by
  have hb : 1 < 10 := by norm_num
  have h2 : (2000 : ℚ) / 1000 = 2 := by norm_num
  have hclog : Int.clog 10 ((2000 : ℚ) / 1000) = 1 := by
    have hup : Int.clog 10 ((2000 : ℚ) / 1000) ≤ 1 := by
      rw [← Int.le_zpow_iff_clog_le hb (by norm_num)]
      rw [h2]
      norm_num
    have hdown : 0 < Int.clog 10 ((2000 : ℚ) / 1000) := by
      rw [← Int.zpow_lt_iff_lt_clog hb (by norm_num)]
      rw [h2]
      norm_num
    omega
  have hval : derivedGranularity 2000 = 10 := by
    rw [derivedGranularity, hclog]
    norm_num
  refine ⟨hval, ?_⟩
  rw [hval, h2]
  norm_num

/-- C4 witness for the amended claim. -/
theorem C4_witness :
    (0 : ℚ) < 2000 ∧ (2000 : ℚ) / 1000 ≤ derivedGranularity 2000 :=
  ⟨by norm_num, (C4_granularity 2000 (by norm_num)).1⟩

/-- Python's built-in `max` over a non-empty sequence (`ValueError`, i.e.
`none`, on an empty one), as used on the key generators in `spa`
(`core.py` lines 200-204). -/
def listMax : List ℚ → Option ℚ
  | [] => none
  | x :: xs =>
    match listMax xs with
    | none => some x
    | some m => some (max x m)

/-- Python's built-in `min` over a non-empty sequence. -/
def listMin : List ℚ → Option ℚ
  | [] => none
  | x :: xs =>
    match listMin xs with
    | none => some x
    | some m => some (min x m)

theorem listMax_mem : ∀ (l : List ℚ) (m : ℚ), listMax l = some m → m ∈ l := by
  intro l
  induction l with
  | nil => intro m h; exact Option.noConfusion h
  | cons x xs ih =>
    intro m h
    rw [listMax] at h
    cases hx : listMax xs with
    | none =>
      rw [hx] at h
      injection h with h
      simp [← h]
    | some mx =>
      rw [hx] at h
      injection h with h
      rcases max_choice x mx with hc | hc <;> rw [hc] at h
      · simp [← h]
      · simp [← h, ih mx hx]

theorem listMin_mem : ∀ (l : List ℚ) (m : ℚ), listMin l = some m → m ∈ l := by
  intro l
  induction l with
  | nil => intro m h; exact Option.noConfusion h
  | cons x xs ih =>
    intro m h
    rw [listMin] at h
    cases hx : listMin xs with
    | none =>
      rw [hx] at h
      injection h with h
      simp [← h]
    | some mx =>
      rw [hx] at h
      injection h with h
      rcases min_choice x mx with hc | hc <;> rw [hc] at h
      · simp [← h]
      · simp [← h, ih mx hx]

/-- Python dict insertion `d[k] = v`: overwrite in place when the key exists,
else append, modelled on an association list. -/
def dictInsert (m : List (ℚ × SMCResult)) (k : ℚ) (v : SMCResult) :
    List (ℚ × SMCResult) :=
  if m.any (fun e => decide (e.1 = k)) then
    m.map (fun e => if e.1 = k then (k, v) else e)
  else m ++ [(k, v)]

/-- The dict merge `{**a, **b}` of `core.py` line 195: entries of `b` are
inserted into `a` in order, overriding on key collision. -/
def mergeDicts (a b : List (ℚ × SMCResult)) : List (ℚ × SMCResult) :=
  b.foldl (fun m e => dictInsert m e.1 e.2) a

/-- Insertion into a key-sorted association list. -/
def insertSorted (e : ℚ × SMCResult) : List (ℚ × SMCResult) → List (ℚ × SMCResult)
  | [] => [e]
  | f :: rest => if e.1 ≤ f.1 then e :: f :: rest else f :: insertSorted e rest

/-- `sort_dict_by_key` of `util.py` (lines 40-46): the dict sorted by key. -/
def sort_dict_by_key (l : List (ℚ × SMCResult)) : List (ℚ × SMCResult) :=
  l.foldr insertSorted []

theorem mem_dictInsert (m : List (ℚ × SMCResult)) (k : ℚ) (v : SMCResult)
    (e : ℚ × SMCResult) (h : e ∈ dictInsert m k v) : e ∈ m ∨ e = (k, v) := by
  rw [dictInsert] at h
  split_ifs at h
  · rw [List.mem_map] at h
    obtain ⟨f, hf, he⟩ := h
    by_cases hfk : f.1 = k
    · rw [if_pos hfk] at he
      exact Or.inr he.symm
    · rw [if_neg hfk] at he
      exact Or.inl (he ▸ hf)
  · rw [List.mem_append] at h
    rcases h with h | h
    · exact Or.inl h
    · exact Or.inr (by simpa using h)

theorem mem_mergeDicts (a b : List (ℚ × SMCResult)) (e : ℚ × SMCResult)
    (h : e ∈ mergeDicts a b) : e ∈ a ∨ e ∈ b := by
  induction b generalizing a with
  | nil => exact Or.inl h
  | cons f bs ih =>
    rw [mergeDicts, List.foldl_cons] at h
    rcases ih (dictInsert a f.1 f.2) h with h2 | h2
    · rcases mem_dictInsert a f.1 f.2 e h2 with h3 | h3
      · exact Or.inl h3
      · exact Or.inr (by simp [h3])
    · exact Or.inr (by simp [h2])

theorem mem_insertSorted (e f : ℚ × SMCResult) :
    ∀ (l : List (ℚ × SMCResult)), f ∈ insertSorted e l ↔ f = e ∨ f ∈ l := by
  intro l
  induction l with
  | nil => simp [insertSorted]
  | cons g rest ih =>
    rw [insertSorted]
    split_ifs
    · simp
    · simp only [List.mem_cons, ih]
      tauto

theorem mem_sort_dict_by_key (l : List (ℚ × SMCResult)) (e : ℚ × SMCResult) :
    e ∈ sort_dict_by_key l ↔ e ∈ l := by
  induction l with
  | nil => simp [sort_dict_by_key]
  | cons f rest ih =>
    rw [sort_dict_by_key, List.foldr_cons]
    rw [show rest.foldr insertSorted [] = sort_dict_by_key rest from rfl] at *
    rw [mem_insertSorted, ih]
    simp

/-- `ConfidenceInterval` named tuple of `dataclasses.py` (line 5). -/
structure ConfidenceInterval where
  low : ℚ
  high : ℚ
  deriving DecidableEq, Repr

/-- `SPAResult` dataclass of `dataclasses.py` (lines 17-21); the dict is an
association list sorted by key. -/
structure SPAResult where
  confidence_interval : ConfidenceInterval
  result_detail : List (ℚ × SMCResult)
  deriving DecidableEq, Repr

/-- A completed `spa` call together with the observable side effect on the
caller's property object: `final_threshold` is the value of
`property_.threshold` when `spa` returns (the driver mutates it in place and
never restores it). -/
structure SPARun where
  spa_result : SPAResult
  final_threshold : ℚ
  deriving DecidableEq, Repr

/-- `_linear_search` of `core.py` (lines 108-141).  `fuel` is the number of
loop iterations still allowed (`iteration_limit - iteration`); reaching `0`
models the `SPAException` raise.  `param` is both the loop variable and the
property's current threshold: line 120 (and line 134) keep
`property_.threshold` equal to `param` at every `smc` call, so the property
state is threaded as this single value, and the returned `ℚ` is the
threshold left in the property on normal return.  `acc` is the
`smc_res_detail` dict. -/
def linear_search (data : List α) (cmp : ℚ → α → Bool)
    (prob_threshold confidence : ℚ) (granularity : ℚ) (goal_bool : Bool)
    (dirAdd : Bool) :
    ℕ → ℚ → List (ℚ × SMCResult) → Option (List (ℚ × SMCResult) × ℚ)
  | 0, _, _ => none
  | fuel + 1, param, smc_res_detail =>
    match smc data (cmp param) prob_threshold confidence true with
    | none => none
    | some smc_result =>
      let detail := dictInsert smc_res_detail param smc_result
      if smc_result.result = some goal_bool then some (detail, param)
      else
        linear_search data cmp prob_threshold confidence granularity goal_bool dirAdd
          fuel (round_to (if dirAdd then param + granularity else param - granularity)
            granularity) detail

theorem self_mem_dictInsert (m : List (ℚ × SMCResult)) (k : ℚ) (v : SMCResult) :
    (k, v) ∈ dictInsert m k v := by
  rw [dictInsert]
  split_ifs with h
  · rw [List.any_eq_true] at h
    obtain ⟨f, hf, hfk⟩ := h
    rw [List.mem_map]
    refine ⟨f, hf, ?_⟩
    rw [if_pos (of_decide_eq_true hfk)]
  · simp

/-- Every entry recorded by `_linear_search` is the `smc` result at its key,
and the returned final threshold is a recorded key whose result is the goal
verdict. -/
theorem linear_search_entries (data : List α) (cmp : ℚ → α → Bool) (p c g : ℚ)
    (goal : Bool) (dir : Bool) :
    ∀ (fuel : ℕ) (param : ℚ) (acc es : List (ℚ × SMCResult)) (t : ℚ),
    (∀ e ∈ acc, smc data (cmp e.1) p c true = some e.2) →
    linear_search data cmp p c g goal dir fuel param acc = some (es, t) →
    (∀ e ∈ es, smc data (cmp e.1) p c true = some e.2) ∧
    (∃ r, (t, r) ∈ es ∧ r.result = some goal ∧ smc data (cmp t) p c true = some r) := by
  intro fuel
  induction fuel with
  | zero =>
    intro param acc es t _ h
    exact Option.noConfusion h
  | succ fuel ih =>
    intro param acc es t hacc h
    rw [linear_search] at h
    cases hsmc : smc data (cmp param) p c true with
    | none =>
      rw [hsmc] at h
      exact Option.noConfusion h
    | some res =>
      rw [hsmc] at h
      simp only [] at h
      have hins : ∀ e ∈ dictInsert acc param res, smc data (cmp e.1) p c true = some e.2 := by
        intro e he
        rcases mem_dictInsert acc param res e he with h2 | h2
        · exact hacc e h2
        · rw [h2]
          exact hsmc
      by_cases hgoal : res.result = some goal
      · rw [if_pos hgoal] at h
        injection h with h
        injection h with h1 h2
        subst h2
        subst h1
        exact ⟨hins, res, self_mem_dictInsert acc param res, hgoal, hsmc⟩
      · rw [if_neg hgoal] at h
        exact ih _ _ es t hins h

/-- The body of `spa` (`core.py` lines 175-206) once start point and
granularity are fixed: round the start point, run the upward search (goal:
the `high_threshold_outcome` verdict), then the downward search from one
step below (goal: the opposite verdict), merge and key-sort the two dicts,
and read the interval bounds off the verdicts (lines 198-204; `max`/`min`
on an empty generator raise `ValueError`, modelled as `none`).  The returned
`final_threshold` is the property threshold left behind by the downward
search, which runs last. -/
def spa_core (data : List α) (cmp : ℚ → α → Bool) (hto : Bool)
    (prob_threshold confidence : ℚ) (iteration_limit : ℕ) (granularity : ℚ)
    (search_start_point : ℚ) : Option SPARun :=
  let start := round_to search_start_point granularity
  let goal_bool_incr := hto
  let goal_bool_decr := !hto
  match linear_search data cmp prob_threshold confidence granularity goal_bool_incr true
      iteration_limit start [] with
  | none => none
  | some (smc_dict_incr, _) =>
    match linear_search data cmp prob_threshold confidence granularity goal_bool_decr false
        iteration_limit (round_to (start - granularity) granularity) [] with
    | none => none
    | some (smc_dict_decr, t_decr) =>
      let smc_dict := sort_dict_by_key (mergeDicts smc_dict_decr smc_dict_incr)
      let trueKeys := (smc_dict.filter (fun e => decide (e.2.result = some true))).map Prod.fst
      let falseKeys := (smc_dict.filter (fun e => decide (e.2.result = some false))).map Prod.fst
      let lowOpt := if goal_bool_incr then listMax falseKeys else listMax trueKeys
      let highOpt := if goal_bool_incr then listMin trueKeys else listMin falseKeys
      match lowOpt, highOpt with
      | some low, some high => some ⟨⟨⟨low, high⟩, smc_dict⟩, t_decr⟩
      | none, _ => none
      | some _, none => none

/-- `spa` of `core.py` (lines 151-206).  `search_start_point` is taken as an
explicit argument: a run in which it was omitted is the run with the value
`property_.start_point_estimate` produced (line 169), so quantifying over it
covers all runs.  `granularity = none` models the omitted argument: the
power-of-ten derivation of line 173 is used (where `math.log10` raises on a
non-positive argument); a supplied granularity must be positive (`_spa_iv`,
lines 144-148).  `threshold₀` is `property_.threshold` at entry; line 120 of
`_linear_search` overwrites it before any read, so the result cannot depend
on it. -/
def spa (data : List α) (cmp : ℚ → α → Bool) (hto : Bool) (prob_threshold : ℚ)
    (confidence : ℚ) (iteration_limit : ℕ) (granularity : Option ℚ)
    (search_start_point : ℚ) (threshold₀ : ℚ) : Option SPARun :=
  match granularity with
  | some g =>
    if g ≤ 0 then none
    else spa_core data cmp hto prob_threshold confidence iteration_limit g
      search_start_point
  | none =>
    if search_start_point ≤ 0 then none
    else spa_core data cmp hto prob_threshold confidence iteration_limit
      (derivedGranularity search_start_point) search_start_point

/-- Interval invariant of the `spa` body for a `'>'` threshold property
(`high_threshold_outcome = false`): `low` is the greatest tested threshold
with a `true` verdict, `high` the smallest with a `false` verdict, both are
keys of the merged map, and `low < high` because the satisfied count is
antitone in the threshold. -/
theorem spa_core_gt_interval (data : List ℚ) (p c : ℚ) (limit : ℕ) (g s₀ : ℚ)
    (run : SPARun)
    (h : spa_core data (ThresholdProperty.check_sample_satisfy true) false p c limit g s₀ =
      some run) :
    run.spa_result.confidence_interval.low ≤ run.spa_result.confidence_interval.high ∧
      (∃ rl, (run.spa_result.confidence_interval.low, rl) ∈ run.spa_result.result_detail ∧
        rl.result = some true) ∧
      (∃ rh, (run.spa_result.confidence_interval.high, rh) ∈ run.spa_result.result_detail ∧
        rh.result = some false) := by
  rw [spa_core] at h
  cases hup : linear_search data (ThresholdProperty.check_sample_satisfy true) p c g
      false true limit (round_to s₀ g) [] with
  | none =>
    rw [hup] at h
    exact Option.noConfusion h
  | some up =>
    obtain ⟨incr, tIncr⟩ := up
    rw [hup] at h
    cases hdown : linear_search data (ThresholdProperty.check_sample_satisfy true) p c g
        (!false) false limit (round_to (round_to s₀ g - g) g) [] with
    | none =>
      rw [hdown] at h
      exact Option.noConfusion h
    | some down =>
      obtain ⟨decr, tDecr⟩ := down
      rw [hdown] at h
      simp only [Bool.not_false, if_neg (Bool.false_ne_true)] at h
      set dict := sort_dict_by_key (mergeDicts decr incr) with hdict
      have hentries : ∀ e ∈ dict, smc data
          (ThresholdProperty.check_sample_satisfy true e.1) p c true = some e.2 := by
        intro e he
        rw [hdict, mem_sort_dict_by_key] at he
        rcases mem_mergeDicts decr incr e he with h2 | h2
        · exact (linear_search_entries data _ p c g (!false) false limit _ [] decr tDecr
            (by simp) hdown).1 e h2
        · exact (linear_search_entries data _ p c g false true limit _ [] incr tIncr
            (by simp) hup).1 e h2
      cases hlow : listMax ((dict.filter (fun e => decide (e.2.result = some true))).map
          Prod.fst) with
      | none =>
        rw [hlow] at h
        exact Option.noConfusion h
      | some low =>
        rw [hlow] at h
        cases hhigh : listMin ((dict.filter (fun e => decide (e.2.result = some false))).map
            Prod.fst) with
        | none =>
          rw [hhigh] at h
          exact Option.noConfusion h
        | some high =>
          rw [hhigh] at h
          injection h with h
          subst h
          obtain ⟨eL, heLf, heL1⟩ := List.mem_map.mp (listMax_mem _ low hlow)
          obtain ⟨eH, heHf, heH1⟩ := List.mem_map.mp (listMin_mem _ high hhigh)
          rw [List.mem_filter] at heLf heHf
          obtain ⟨heLmem, heLres⟩ := heLf
          obtain ⟨heHmem, heHres⟩ := heHf
          have heLres' : eL.2.result = some true := of_decide_eq_true heLres
          have heHres' : eH.2.result = some false := of_decide_eq_true heHres
          obtain ⟨_, _, hbL⟩ := smc_cont_fields data _ p c eL.2 (hentries eL heLmem)
          obtain ⟨_, _, hbH⟩ := smc_cont_fields data _ p c eH.2 (hentries eH heHmem)
          obtain ⟨heqL, hlen⟩ := hbL true heLres'
          obtain ⟨heqH, _⟩ := hbH false heHres'
          have hpL : p < (data.countP (ThresholdProperty.check_sample_satisfy true eL.1) : ℚ) /
              (data.length : ℚ) := of_decide_eq_true heqL.symm
          have hpH : ¬(p < (data.countP (ThresholdProperty.check_sample_satisfy true eH.1) : ℚ) /
              (data.length : ℚ)) := of_decide_eq_false heqH.symm
          have hlh : eL.1 < eH.1 := by
            by_contra hcon
            push_neg at hcon
            have hcnt := countP_gt_antitone data eH.1 eL.1 hcon
            have hL : (0 : ℚ) < (data.length : ℚ) := by exact_mod_cast hlen
            have hdiv : (data.countP (ThresholdProperty.check_sample_satisfy true eL.1) : ℚ) /
                (data.length : ℚ) ≤
                (data.countP (ThresholdProperty.check_sample_satisfy true eH.1) : ℚ) /
                (data.length : ℚ) := by
              gcongr
            exact hpH (lt_of_lt_of_le hpL hdiv)
          refine ⟨?_, ⟨eL.2, ?_, heLres'⟩, ⟨eH.2, ?_, heHres'⟩⟩
          · show low ≤ high
            rw [← heL1, ← heH1]
            exact le_of_lt hlh
          · show (low, eL.2) ∈ dict
            rw [← heL1]
            exact heLmem
          · show (high, eH.2) ∈ dict
            rw [← heH1]
            exact heHmem

/-- C1 (amended): for every normally-returning run of `spa` on a property
built with the `'>'` comparator (whose `high_threshold_outcome` is `false`),
the returned interval satisfies `low ≤ high`, both bounds are keys of the
returned threshold-to-result map, and the verdict at `low` is TRUE while the
verdict at `high` is FALSE (the opposite orientation from the claim). -/
theorem C1_interval_invariant (data : List ℚ) (p c : ℚ) (limit : ℕ)
    (gran : Option ℚ) (s₀ t₀ : ℚ) (run : SPARun)
    (h : spa data (ThresholdProperty.check_sample_satisfy true)
      (high_threshold_outcome true) p c limit gran s₀ t₀ = some run) :
    run.spa_result.confidence_interval.low ≤ run.spa_result.confidence_interval.high ∧
      (∃ rl, (run.spa_result.confidence_interval.low, rl) ∈ run.spa_result.result_detail ∧
        rl.result = some true) ∧
      (∃ rh, (run.spa_result.confidence_interval.high, rh) ∈ run.spa_result.result_detail ∧
        rh.result = some false) := by
  cases gran with
  | some g =>
    rw [spa] at h
    split_ifs at h
    exact spa_core_gt_interval data p c limit g s₀ run h
  | none =>
    rw [spa] at h
    split_ifs at h
    exact spa_core_gt_interval data p c limit (derivedGranularity s₀) s₀ run h

/-- C1 counterexample to the claimed verdict orientation: a complete `spa`
run on `data = [0, 0, 10]` with a `'>'` property (`prob_threshold = 1/2`,
`confidence = 1/2`, granularity `1`, start point `0`) returns the interval
`(-1, 0)`, and the verdict stored at the key `low = -1` is TRUE (and the one
at `high = 0` is FALSE) — not `false` at `low` and `true` at `high` as the
claim states. -/
theorem C1_counterexample :
    ((spa [(0 : ℚ), 0, 10] (ThresholdProperty.check_sample_satisfy true)
        (high_threshold_outcome true) (1/2) (1/2) 5 (some 1) 0 100).map
      (fun run => (run.spa_result.confidence_interval.low,
        run.spa_result.confidence_interval.high,
        (run.spa_result.result_detail.filter
          (fun e => decide (e.1 = run.spa_result.confidence_interval.low))).map
          (fun e => e.2.result),
        (run.spa_result.result_detail.filter
          (fun e => decide (e.1 = run.spa_result.confidence_interval.high))).map
          (fun e => e.2.result)))) =
      some (-1, 0, [some true], [some false]) := by
  decide

/-- C1 witness: the amended invariant at the same concrete run. -/
theorem C1_witness :
    ∃ run, spa [(0 : ℚ), 0, 10] (ThresholdProperty.check_sample_satisfy true)
        (high_threshold_outcome true) (1/2) (1/2) 5 (some 1) 0 100 = some run ∧
      run.spa_result.confidence_interval.low ≤ run.spa_result.confidence_interval.high ∧
      (∃ rl, (run.spa_result.confidence_interval.low, rl) ∈ run.spa_result.result_detail ∧
        rl.result = some true) := by
  cases hrun : spa [(0 : ℚ), 0, 10] (ThresholdProperty.check_sample_satisfy true)
      (high_threshold_outcome true) (1/2) (1/2) 5 (some 1) 0 100 with
  | none => exact absurd hrun (by decide)
  | some run =>
    obtain ⟨h1, h2, _⟩ := C1_interval_invariant [(0 : ℚ), 0, 10] (1/2) (1/2) 5 (some 1)
      0 100 run hrun
    exact ⟨run, rfl, h1, h2⟩

/-- Reading the final threshold off the last `match` of `spa_core`. -/
theorem spaRun_final_of_match (lo hi : Option ℚ) (dict : List (ℚ × SMCResult)) (t : ℚ)
    (run : SPARun)
    (h : (match lo, hi with
          | some low, some high => some (⟨⟨⟨low, high⟩, dict⟩, t⟩ : SPARun)
          | none, _ => none
          | some _, none => none) = some run) :
    run.final_threshold = t := by
  match lo, hi with
  | some low, some high =>
    injection h with h
    rw [← h]
  | none, _ => exact Option.noConfusion h
  | some _, none => exact Option.noConfusion h

/-- C9: after `spa` returns, the property's threshold holds the last value
assigned by the downward linear search — the threshold at which that search
hit its goal verdict — and the outcome does not depend on the threshold the
property held before the call (line 120 overwrites it before any read). -/
theorem C9_threshold_mutation (data : List α) (cmp : ℚ → α → Bool) (hto : Bool)
    (p c : ℚ) (limit : ℕ) (gran : Option ℚ) (s₀ t₀ : ℚ) (run : SPARun)
    (h : spa data cmp hto p c limit gran s₀ t₀ = some run) :
    (∀ t₀' : ℚ, spa data cmp hto p c limit gran s₀ t₀' = some run) ∧
      ∃ (g : ℚ) (es : List (ℚ × SMCResult)) (r : SMCResult),
        linear_search data cmp p c g (!hto) false limit
          (round_to (round_to s₀ g - g) g) [] = some (es, run.final_threshold) ∧
        (run.final_threshold, r) ∈ es ∧ r.result = some (!hto) := by
  refine ⟨fun t₀' => h, ?_⟩
  have hcore : ∃ g, spa_core data cmp hto p c limit g s₀ = some run := by
    cases gran with
    | some g =>
      rw [spa] at h
      split_ifs at h
      exact ⟨g, h⟩
    | none =>
      rw [spa] at h
      split_ifs at h
      exact ⟨derivedGranularity s₀, h⟩
  obtain ⟨g, hg⟩ := hcore
  rw [spa_core] at hg
  cases hup : linear_search data cmp p c g hto true limit (round_to s₀ g) [] with
  | none =>
    rw [hup] at hg
    exact Option.noConfusion hg
  | some up =>
    obtain ⟨incr, tIncr⟩ := up
    rw [hup] at hg
    cases hdown : linear_search data cmp p c g (!hto) false limit
        (round_to (round_to s₀ g - g) g) [] with
    | none =>
      rw [hdown] at hg
      exact Option.noConfusion hg
    | some down =>
      obtain ⟨decr, tDecr⟩ := down
      rw [hdown] at hg
      simp only [] at hg
      have hfin : run.final_threshold = tDecr :=
        spaRun_final_of_match _ _ _ _ run hg
      obtain ⟨_, r, hr1, hr2, _⟩ := linear_search_entries data cmp p c g (!hto) false
        limit _ [] decr tDecr (by simp) hdown
      rw [hfin]
      exact ⟨g, decr, r, hdown, hr1, hr2⟩

/-- C9 witness: a concrete `spa` run leaves the property threshold at `-1`
(the downward search's goal threshold), regardless of the initial threshold
(`100` or `42`), and not equal to the value held before the call. -/
theorem C9_witness :
    ∃ run, spa [(0 : ℚ), 0, 10] (ThresholdProperty.check_sample_satisfy true)
        (high_threshold_outcome true) (1/2) (1/2) 5 (some 1) 0 100 = some run ∧
      spa [(0 : ℚ), 0, 10] (ThresholdProperty.check_sample_satisfy true)
        (high_threshold_outcome true) (1/2) (1/2) 5 (some 1) 0 42 = some run ∧
      run.final_threshold = -1 ∧ run.final_threshold ≠ 100 := by
  cases hrun : spa [(0 : ℚ), 0, 10] (ThresholdProperty.check_sample_satisfy true)
      (high_threshold_outcome true) (1/2) (1/2) 5 (some 1) 0 100 with
  | none => exact absurd hrun (by decide)
  | some run =>
    have h42 := (C9_threshold_mutation [(0 : ℚ), 0, 10]
      (ThresholdProperty.check_sample_satisfy true) (high_threshold_outcome true)
      (1/2) (1/2) 5 (some 1) 0 100 run hrun).1 42
    have hval : run.final_threshold = -1 := by
      have hmap : (spa [(0 : ℚ), 0, 10] (ThresholdProperty.check_sample_satisfy true)
          (high_threshold_outcome true) (1/2) (1/2) 5 (some 1) 0 100).map
            (fun r => r.final_threshold) = some (-1 : ℚ) := by decide
      rw [hrun] at hmap
      simpa using hmap
    exact ⟨run, rfl, h42, hval, by rw [hval]; norm_num⟩
